import Mathlib

set_option maxRecDepth 4000

/-!
Shallow embedding of the markdown-to-docx core of `Mini_Markdown_script.py`:
the block scanner and inline tokenizer inside `export_docx_from_markdown`
(lines 52-133) and `_add_inlines_docx` / `INLINE_RE` (lines 25-50).
Strings are modelled as `List Char`; the document-object side effects are
modelled as the ordered trace of emitted document items.
-/

/-- Whitespace recognised by trimming and the regex class `\s`
(ASCII fragment; the source operates on text where this is what occurs). -/
def isPySpace (c : Char) : Bool :=
  c == ' ' || c == '\t' || c == '\n' || c == '\r' || c == '\x0b' || c == '\x0c'

/-- The backtick character, written by code point. -/
def tickChar : Char := Char.ofNat 96

/-- Python str.strip(): remove leading and trailing whitespace. -/
def pyStrip (cs : List Char) : List Char :=
  ((cs.dropWhile isPySpace).reverse.dropWhile isPySpace).reverse

/-- First normalisation pass (line 69): replace each CRLF by LF,
scanning left to right without overlap, as Python str.replace does. -/
def replaceCRLF : List Char → List Char
  | [] => []
  | '\r' :: '\n' :: rest => '\n' :: replaceCRLF rest
  | c :: rest => c :: replaceCRLF rest

/-- Second normalisation pass (line 69): replace each remaining CR by LF. -/
def replaceCRtoNL (cs : List Char) : List Char :=
  cs.map (fun c => if c = '\r' then '\n' else c)

/-- Python str.split("\n"): split on every LF, keeping empty segments;
the empty text yields one empty line. -/
def splitNl : List Char → List (List Char)
  | [] => [[]]
  | '\n' :: rest => [] :: splitNl rest
  | c :: rest =>
    match splitNl rest with
    | [] => [[c]]
    | l :: ls => (c :: l) :: ls

/-- Line splitting of the source (line 69): normalise CRLF and CR to LF,
then split on LF. -/
def pyLines (md : List Char) : List (List Char) :=
  splitNl (replaceCRtoNL (replaceCRLF md))

/-- Boolean prefix test (Python startswith). -/
def lStartsWith : List Char → List Char → Bool
  | [], _ => true
  | _ :: _, [] => false
  | p :: ps, c :: cs => p == c && lStartsWith ps cs

/-- Boolean suffix test (Python endswith). -/
def lEndsWith (pat s : List Char) : Bool := lStartsWith pat.reverse s.reverse

/-- Python slice p[k:-k]. -/
def stripEnds (k : Nat) (p : List Char) : List Char :=
  (p.drop k).take (p.length - 2 * k)

/-- The run styles emitted by `_add_inlines_docx`: an unstyled run, a bold
run, an italic run, or a monospace (Consolas) run. -/
inductive Style
  | plain
  | bold
  | italic
  | code
  deriving DecidableEq

/-- One run added to a paragraph: its text and its style. -/
structure InlineSpan where
  text : List Char
  style : Style
  deriving DecidableEq

/-- The three alternatives of INLINE_RE (line 25), in alternation order. -/
inductive Delim
  | star2
  | star1
  | tick
  deriving DecidableEq

/-- The delimiter marker of each alternative. -/
def delimMark : Delim → List Char
  | Delim.star2 => ['*', '*']
  | Delim.star1 => ['*']
  | Delim.tick => [tickChar]

/-- The style `_add_inlines_docx` assigns to a span of each delimiter. -/
def styleOfDelim : Delim → Style
  | Delim.star2 => Style.bold
  | Delim.star1 => Style.italic
  | Delim.tick => Style.code

/-- The full matched text of a delimited match with interior `i`. -/
def matchText (d : Delim) (i : List Char) : List Char :=
  delimMark d ++ i ++ delimMark d

/-- Split a list at the first occurrence of `d`: the part strictly before the
first `d` (which therefore contains no `d`) and the part after it. -/
def splitAtFirst (d : Char) : List Char → Option (List Char × List Char)
  | [] => none
  | c :: rest =>
    if c = d then some ([], rest)
    else
      match splitAtFirst d rest with
      | some (p, q) => some (c :: p, q)
      | none => none

/-- Split a list at the first occurrence of the two-character run `d d`. -/
def splitAtFirstPair (d : Char) : List Char → Option (List Char × List Char)
  | [] => none
  | [_] => none
  | c :: c2 :: rest =>
    if c = d ∧ c2 = d then some ([], rest)
    else
      match splitAtFirstPair d (c2 :: rest) with
      | some (p, q) => some (c :: p, q)
      | none => none

/-- Non-greedy `.+?` followed by a single closing delimiter `d`: a non-empty
interior up to the first `d` at offset at least one, and the remainder. -/
def findCloseSingle (d : Char) : List Char → Option (List Char × List Char)
  | [] => none
  | c :: rest =>
    match splitAtFirst d rest with
    | some (p, q) => some (c :: p, q)
    | none => none

/-- Non-greedy `.+?` followed by a closing run `d d`: a non-empty interior up
to the first `d d` at offset at least one, and the remainder. -/
def findCloseDouble (d : Char) : List Char → Option (List Char × List Char)
  | [] => none
  | c :: rest =>
    match splitAtFirstPair d rest with
    | some (p, q) => some (c :: p, q)
    | none => none

/-- First alternative of INLINE_RE at the current position: bold. -/
def tryBold : List Char → Option (List Char × List Char)
  | '*' :: '*' :: rest => findCloseDouble '*' rest
  | _ => none

/-- Second alternative of INLINE_RE at the current position: italic. -/
def tryItalic : List Char → Option (List Char × List Char)
  | '*' :: rest => findCloseSingle '*' rest
  | _ => none

/-- Third alternative of INLINE_RE at the current position: inline code. -/
def tryCode (cs : List Char) : Option (List Char × List Char) :=
  match cs with
  | c :: rest => if c = tickChar then findCloseSingle tickChar rest else none
  | [] => none

/-- INLINE_RE attempted at the current position, alternatives in order:
bold, then italic, then code.  Returns the delimiter kind, interior, and
the remainder after the match. -/
def tryMatchAt (cs : List Char) : Option (Delim × List Char × List Char) :=
  match tryBold cs with
  | some (i, a) => some (Delim.star2, i, a)
  | none =>
    match tryItalic cs with
    | some (i, a) => some (Delim.star1, i, a)
    | none =>
      match tryCode cs with
      | some (i, a) => some (Delim.tick, i, a)
      | none => none

/-- Leftmost INLINE_RE match: the text before the match, the delimiter kind,
the interior, and the remainder after the match. -/
def findFirstMatch : List Char → Option (List Char × Delim × List Char × List Char)
  | [] => none
  | c :: rest =>
    match tryMatchAt (c :: rest) with
    | some (d, i, a) => some ([], d, i, a)
    | none =>
      match findFirstMatch rest with
      | some (p, d, i, a) => some (c :: p, d, i, a)
      | none => none

/-- One piece of the `re.split` decomposition: a between-match text segment,
or a delimited match (kept with its interior). -/
inductive Piece
  | raw (t : List Char)
  | mat (d : Delim) (i : List Char)
  deriving DecidableEq

/-- Fuel-indexed computation of the `re.split` piece sequence; each match
consumes at least three characters, so fuel equal to the input length
suffices (adequacy proved below). -/
def piecesF : Nat → List Char → List Piece
  | 0, cs => [Piece.raw cs]
  | Nat.succ n, cs =>
    match findFirstMatch cs with
    | none => [Piece.raw cs]
    | some (p, d, i, a) => Piece.raw p :: Piece.mat d i :: piecesF n a

/-- The `re.split(INLINE_RE, text)` decomposition into pieces. -/
def pieces (cs : List Char) : List Piece :=
  piecesF cs.length cs

/-- The part string a piece contributes to `re.split`'s output. -/
def pieceText : Piece → List Char
  | Piece.raw t => t
  | Piece.mat d i => matchText d i

/-- Modelled from the spec: the text a piece contributes once exactly the
matched delimiter pairs are removed (a match keeps only its interior). -/
def pieceKept : Piece → List Char
  | Piece.raw t => t
  | Piece.mat _ i => i

/-- The list returned by `INLINE_RE.split(text)` (line 35): between-match
segments interleaved with the matched groups, empties included. -/
def splitParts (cs : List Char) : List (List Char) :=
  (pieces cs).map pieceText

/-- The bold test of `_add_inlines_docx` (line 39). -/
def boldCond (p : List Char) : Bool :=
  lStartsWith ['*', '*'] p && lEndsWith ['*', '*'] p && decide (4 ≤ p.length)

/-- The italic test of `_add_inlines_docx` (line 42). -/
def italCond (p : List Char) : Bool :=
  lStartsWith ['*'] p && lEndsWith ['*'] p && decide (2 ≤ p.length)

/-- The code test of `_add_inlines_docx` (line 45). -/
def codeCond (p : List Char) : Bool :=
  lStartsWith [tickChar] p && lEndsWith [tickChar] p && decide (2 ≤ p.length)

/-- The per-part body of `_add_inlines_docx`'s loop (lines 36-50): skip an
empty part, else classify by the startswith/endswith/length chain and emit
one run, stripping the delimiters in the styled branches. -/
def classifyPart (p : List Char) : Option InlineSpan :=
  if p.isEmpty then none
  else if boldCond p then some ⟨stripEnds 2 p, Style.bold⟩
  else if italCond p then some ⟨stripEnds 1 p, Style.italic⟩
  else if codeCond p then some ⟨stripEnds 1 p, Style.code⟩
  else some ⟨p, Style.plain⟩

/-- Whether a part triggers one of the three delimiter-stripping branches. -/
def looksDelimited (p : List Char) : Bool :=
  boldCond p || italCond p || codeCond p

/-- The inline tokenizer: the ordered sequence of runs `_add_inlines_docx`
adds for a content string (lines 27-50). -/
def tokenize_inline (cs : List Char) : List InlineSpan :=
  (splitParts cs).filterMap classifyPart

/-- Concatenation of the text fields of a span sequence. -/
def spanConcatTexts (spans : List InlineSpan) : List Char :=
  (spans.map InlineSpan.text).flatten

/-- Modelled from the spec: the input content with exactly its matched
delimiter pairs removed (each INLINE_RE match keeps only its interior;
between-match segments are kept verbatim). -/
def removeMatchedDelims (cs : List Char) : List Char :=
  ((pieces cs).map pieceKept).flatten

/-- The between-match (non-match) segments of the `re.split` decomposition. -/
def rawSegs (cs : List Char) : List (List Char) :=
  (pieces cs).filterMap
    (fun p => match p with
      | Piece.raw t => some t
      | Piece.mat _ _ => none)

/-- The block-level units the scanner classifies lines into. -/
inductive Block
  | Heading (level : Nat) (content : List Char)
  | BulletItem (content : List Char)
  | NumberedItem (content : List Char)
  | CodeLine (text : List Char)
  | BlankSeparator
  | Paragraph (content : List Char)
  deriving DecidableEq

/-- The fence test (line 85): the stripped line starts with three backticks. -/
def isFence (l : List Char) : Bool :=
  lStartsWith [tickChar, tickChar, tickChar] (pyStrip l)

/-- The heading regex `^(#{1,6})\s+(.*)$` (line 99) against the raw line:
one to six leading hash characters followed by at least one whitespace
character; returns the hash count and the text after the whitespace run. -/
def headingMatch (l : List Char) : Option (Nat × List Char) :=
  let k := (l.takeWhile (fun c => c == '#')).length
  if 1 ≤ k ∧ k ≤ 6 then
    match l.drop k with
    | c :: rest => if isPySpace c then some (k, (c :: rest).dropWhile isPySpace) else none
    | [] => none
  else none

/-- The bullet regex `^\s*[-*]\s+(.*)$` (line 107): optional indentation, a
dash or star, at least one whitespace character, then the captured rest. -/
def bulletMatch (l : List Char) : Option (List Char) :=
  match l.dropWhile isPySpace with
  | c :: rest =>
    if c = '-' ∨ c = '*' then
      match rest with
      | c2 :: rest2 =>
        if isPySpace c2 then some ((c2 :: rest2).dropWhile isPySpace) else none
      | [] => none
    else none
  | [] => none

/-- The numbered-list regex `^\s*\d+\.\s+(.*)$` (line 113). -/
def numMatch (l : List Char) : Option (List Char) :=
  let t := l.dropWhile isPySpace
  let ds := t.takeWhile (fun c => c.isDigit)
  if ds.isEmpty then none
  else
    match t.drop ds.length with
    | '.' :: rest =>
      match rest with
      | c :: rest2 =>
        if isPySpace c then some ((c :: rest2).dropWhile isPySpace) else none
      | [] => none
    | _ => none

/-- Per-line classification outside a fence, in source order (lines 98-126):
heading, bullet item, numbered item, blank line, paragraph.  A heading or
list item stores the captured rest trimmed; a paragraph stores the original
line unmodified. -/
def classifyLine (l : List Char) : Block :=
  match headingMatch l with
  | some (n, g) => Block.Heading n (pyStrip g)
  | none =>
    match bulletMatch l with
    | some g => Block.BulletItem (pyStrip g)
    | none =>
      match numMatch l with
      | some g => Block.NumberedItem (pyStrip g)
      | none =>
        if (pyStrip l).isEmpty then Block.BlankSeparator
        else Block.Paragraph l

/-- The scanner loop (lines 83-130) over the line list, with the in-fence
flag and the accumulated code lines: a fence line toggles the flag (opening
resets the accumulator, closing flushes it as CodeLine blocks) and emits no
block; an in-fence line is accumulated unmodified; any other line emits the
block `classifyLine` gives.  At end of input a still-open fence is flushed
(lines 129-130). -/
def scanAux : List (List Char) → Bool → List (List Char) → List Block
  | [], inCode, cl => if inCode then cl.map Block.CodeLine else []
  | l :: ls, inCode, cl =>
    if isFence l then
      if inCode then cl.map Block.CodeLine ++ scanAux ls false []
      else scanAux ls true []
    else if inCode then scanAux ls true (cl ++ [l])
    else classifyLine l :: scanAux ls false cl

/-- The block scanner: split the text into lines (line 69) and run the
scanner loop from the initial state the source sets up (lines 66-67):
fence flag false, no accumulated code lines. -/
def scan_blocks (md : List Char) : List Block :=
  scanAux (pyLines md) false []

/-- The number of fence-marker lines in a line list. -/
def numFences (ls : List (List Char)) : Nat :=
  (ls.filter isFence).length

/-- One item added to the docx document, abstracted from python-docx calls:
a heading with literal text (add_heading, line 103), a bulleted or numbered
paragraph with its inline runs (lines 109-116), an empty paragraph
(line 121), a body paragraph with its inline runs (lines 125-126), or a
monospace code paragraph with literal text (lines 76-80). -/
inductive DocItem
  | headingItem (level : Nat) (text : List Char)
  | listBulletPara (runs : List InlineSpan)
  | listNumberPara (runs : List InlineSpan)
  | emptyPara
  | bodyPara (runs : List InlineSpan)
  | codePara (text : List Char)
  deriving DecidableEq

/-- The document item emitted for one out-of-fence, non-fence line
(lines 98-126).  A heading is added with its literal text and no inline
tokenization; bullet, numbered and body paragraphs get their runs from
`_add_inlines_docx`. -/
def emitLine (l : List Char) : DocItem :=
  match headingMatch l with
  | some (n, g) => DocItem.headingItem n (pyStrip g)
  | none =>
    match bulletMatch l with
    | some g => DocItem.listBulletPara (tokenize_inline (pyStrip g))
    | none =>
      match numMatch l with
      | some g => DocItem.listNumberPara (tokenize_inline (pyStrip g))
      | none =>
        if (pyStrip l).isEmpty then DocItem.emptyPara
        else DocItem.bodyPara (tokenize_inline l)

/-- The document-building loop of `export_docx_from_markdown` (lines 83-130)
as the ordered trace of items added to the document. -/
def exportAux : List (List Char) → Bool → List (List Char) → List DocItem
  | [], inCode, cl => if inCode then cl.map DocItem.codePara else []
  | l :: ls, inCode, cl =>
    if isFence l then
      if inCode then cl.map DocItem.codePara ++ exportAux ls false []
      else exportAux ls true []
    else if inCode then exportAux ls true (cl ++ [l])
    else emitLine l :: exportAux ls false cl

/-- The ordered trace of document items `export_docx_from_markdown` adds for
a markdown text (lines 52-130, abstracted from the docx object). -/
def export_docx_from_markdown (md : List Char) : List DocItem :=
  exportAux (pyLines md) false []

/-- The renderer's action on one block: which document item it becomes, and
for which blocks the inline tokenizer supplies the runs. -/
def renderBlock : Block → DocItem
  | Block.Heading n c => DocItem.headingItem n c
  | Block.BulletItem c => DocItem.listBulletPara (tokenize_inline c)
  | Block.NumberedItem c => DocItem.listNumberPara (tokenize_inline c)
  | Block.CodeLine t => DocItem.codePara t
  | Block.BlankSeparator => DocItem.emptyPara
  | Block.Paragraph c => DocItem.bodyPara (tokenize_inline c)

/-- The inline runs carried by a document item, if any: heading items and
code paragraphs carry literal text, not runs. -/
def docRuns : DocItem → Option (List InlineSpan)
  | DocItem.headingItem _ _ => none
  | DocItem.listBulletPara rs => some rs
  | DocItem.listNumberPara rs => some rs
  | DocItem.emptyPara => none
  | DocItem.bodyPara rs => some rs
  | DocItem.codePara _ => none

/-- Consecutive invocations of the exporter: each call executes lines 66-67,
initialising the fence flag and code-line accumulator locally, so each
call's block sequence is `scan_blocks` of that call's own text. -/
def runExportCalls (docs : List (List Char)) : List (List Block) :=
  docs.map scan_blocks

theorem take_len_append (l t : List Char) : (l ++ t).take l.length = l := by
  induction l with
  | nil => simp
  | cons c cs ih => simp [List.take_succ_cons, ih]

theorem splitAtFirst_eq {d : Char} :
    ∀ {xs p q : List Char}, splitAtFirst d xs = some (p, q) → xs = p ++ d :: q ∧ d ∉ p := by
  intro xs
  induction xs with
  | nil => intro p q h; simp [splitAtFirst] at h
  | cons c rest ih =>
    intro p q h
    rw [splitAtFirst] at h
    split at h
    · rename_i hc
      simp only [Option.some.injEq, Prod.mk.injEq] at h
      obtain ⟨rfl, rfl⟩ := h
      subst hc
      simp
    · rename_i hc
      split at h
      · rename_i p1 q1 hsub
        simp only [Option.some.injEq, Prod.mk.injEq] at h
        obtain ⟨rfl, rfl⟩ := h
        obtain ⟨h1, h2⟩ := ih hsub
        constructor
        · simp [h1]
        · intro hmem
          rcases List.mem_cons.mp hmem with h3 | h3
          · exact hc h3.symm
          · exact h2 h3
      · simp at h

theorem splitAtFirstPair_eq {d : Char} :
    ∀ {xs p q : List Char}, splitAtFirstPair d xs = some (p, q) → xs = p ++ d :: d :: q := by
  intro xs
  induction xs with
  | nil => intro p q h; simp [splitAtFirstPair] at h
  | cons c rest ih =>
    intro p q h
    cases rest with
    | nil => simp [splitAtFirstPair] at h
    | cons c2 rest2 =>
      rw [splitAtFirstPair] at h
      split at h
      · rename_i hc
        simp only [Option.some.injEq, Prod.mk.injEq] at h
        obtain ⟨rfl, rfl⟩ := h
        obtain ⟨rfl, rfl⟩ := hc
        simp
      · rename_i hc
        split at h
        · rename_i p1 q1 hsub
          simp only [Option.some.injEq, Prod.mk.injEq] at h
          obtain ⟨rfl, rfl⟩ := h
          have h1 := ih hsub
          simp [h1]
        · simp at h

theorem findCloseSingle_eq {d : Char} {xs i a : List Char}
    (h : findCloseSingle d xs = some (i, a)) :
    xs = i ++ d :: a ∧ ∃ c p, i = c :: p ∧ d ∉ p := by
  cases xs with
  | nil => simp [findCloseSingle] at h
  | cons c rest =>
    rw [findCloseSingle] at h
    split at h
    · rename_i p1 q1 hsub
      simp only [Option.some.injEq, Prod.mk.injEq] at h
      obtain ⟨rfl, rfl⟩ := h
      obtain ⟨h1, h2⟩ := splitAtFirst_eq hsub
      exact ⟨by simp [h1], c, p1, rfl, h2⟩
    · simp at h

theorem findCloseDouble_eq {d : Char} {xs i a : List Char}
    (h : findCloseDouble d xs = some (i, a)) :
    xs = i ++ d :: d :: a ∧ i ≠ [] := by
  cases xs with
  | nil => simp [findCloseDouble] at h
  | cons c rest =>
    rw [findCloseDouble] at h
    split at h
    · rename_i p1 q1 hsub
      simp only [Option.some.injEq, Prod.mk.injEq] at h
      obtain ⟨rfl, rfl⟩ := h
      have h1 := splitAtFirstPair_eq hsub
      exact ⟨by simp [h1], by simp⟩
    · simp at h

theorem tryMatchAt_eq {cs : List Char} {d : Delim} {i a : List Char}
    (h : tryMatchAt cs = some (d, i, a)) :
    cs = matchText d i ++ a ∧ i ≠ [] ∧
      (d = Delim.star1 → ∃ c p, i = c :: p ∧ '*' ∉ p) := by
  rw [tryMatchAt] at h
  split at h
  · rename_i i1 a1 hb
    simp only [Option.some.injEq, Prod.mk.injEq] at h
    obtain ⟨rfl, rfl, rfl⟩ := h
    unfold tryBold at hb
    split at hb
    · rename_i rest
      obtain ⟨h1, h2⟩ := findCloseDouble_eq hb
      refine ⟨?_, ?_, by intro hcontra; cases hcontra⟩
      · simp [matchText, delimMark, h1]
      · intro hcontra
        exact h2 hcontra
    · simp at hb
  · rename_i hb
    split at h
    · rename_i i1 a1 hi
      simp only [Option.some.injEq, Prod.mk.injEq] at h
      obtain ⟨rfl, rfl, rfl⟩ := h
      unfold tryItalic at hi
      split at hi
      · rename_i rest
        obtain ⟨h1, c, p, hcp, hnp⟩ := findCloseSingle_eq hi
        refine ⟨by simp [matchText, delimMark, h1], ?_, ?_⟩
        · intro hcontra; rw [hcontra] at hcp; cases hcp
        · intro _; exact ⟨c, p, hcp, hnp⟩
      · simp at hi
    · rename_i hi
      split at h
      · rename_i i1 a1 hk
        simp only [Option.some.injEq, Prod.mk.injEq] at h
        obtain ⟨rfl, rfl, rfl⟩ := h
        rw [tryCode.eq_def] at hk
        split at hk
        · rename_i c rest
          split at hk
          · rename_i hc
            obtain ⟨h1, c1, p, hcp, hnp⟩ := findCloseSingle_eq hk
            refine ⟨?_, ?_, by intro hcontra; cases hcontra⟩
            · subst hc; simp [matchText, delimMark, h1]
            · intro hcontra; rw [hcontra] at hcp; cases hcp
          · simp at hk
        · simp at hk
      · simp at h

theorem findFirstMatch_eq :
    ∀ {cs p : List Char} {d : Delim} {i a : List Char},
      findFirstMatch cs = some (p, d, i, a) →
      cs = p ++ matchText d i ++ a ∧ i ≠ [] ∧
        (d = Delim.star1 → ∃ c q, i = c :: q ∧ '*' ∉ q) := by
  intro cs
  induction cs with
  | nil => intro p d i a h; simp [findFirstMatch] at h
  | cons c rest ih =>
    intro p d i a h
    rw [findFirstMatch] at h
    split at h
    · rename_i d1 i1 a1 hm
      simp only [Option.some.injEq, Prod.mk.injEq] at h
      obtain ⟨rfl, rfl, rfl, rfl⟩ := h
      obtain ⟨h1, h2, h3⟩ := tryMatchAt_eq hm
      exact ⟨by simp [h1], h2, h3⟩
    · rename_i hm
      split at h
      · rename_i p1 d1 i1 a1 hsub
        simp only [Option.some.injEq, Prod.mk.injEq] at h
        obtain ⟨rfl, rfl, rfl, rfl⟩ := h
        obtain ⟨h1, h2, h3⟩ := ih hsub
        exact ⟨by simp [h1], h2, h3⟩
      · simp at h

theorem matchText_length_pos (d : Delim) (i : List Char) : 0 < (matchText d i).length := by
  cases d <;> simp [matchText, delimMark]

theorem findFirstMatch_rest_lt {cs p : List Char} {d : Delim} {i a : List Char}
    (h : findFirstMatch cs = some (p, d, i, a)) : a.length < cs.length := by
  obtain ⟨h1, _, _⟩ := findFirstMatch_eq h
  have h2 := matchText_length_pos d i
  rw [h1]
  simp only [List.length_append]
  omega

theorem piecesF_congr :
    ∀ (n m : Nat) (cs : List Char), cs.length ≤ n → cs.length ≤ m →
      piecesF n cs = piecesF m cs := by
  intro n
  induction n with
  | zero =>
    intro m cs hn hm
    have hcs : cs = [] := List.length_eq_zero.mp (Nat.le_zero.mp hn)
    subst hcs
    cases m with
    | zero => rfl
    | succ m => simp [piecesF, findFirstMatch]
  | succ n ih =>
    intro m cs hn hm
    cases m with
    | zero =>
      have hcs : cs = [] := List.length_eq_zero.mp (Nat.le_zero.mp hm)
      subst hcs
      simp [piecesF, findFirstMatch]
    | succ m =>
      rw [piecesF, piecesF]
      cases hf : findFirstMatch cs with
      | none => rfl
      | some r =>
        obtain ⟨p, d, i, a⟩ := r
        have hlt := findFirstMatch_rest_lt hf
        have ha_n : a.length ≤ n := by omega
        have ha_m : a.length ≤ m := by omega
        simp [ih m a ha_n ha_m]

theorem pieces_none {cs : List Char} (h : findFirstMatch cs = none) :
    pieces cs = [Piece.raw cs] := by
  rw [pieces, piecesF_congr cs.length (cs.length + 1) cs (Nat.le_refl _) (Nat.le_succ _),
    piecesF, h]

theorem pieces_some {cs p : List Char} {d : Delim} {i a : List Char}
    (h : findFirstMatch cs = some (p, d, i, a)) :
    pieces cs = Piece.raw p :: Piece.mat d i :: pieces a := by
  have hlt := findFirstMatch_rest_lt h
  rw [pieces, piecesF_congr cs.length (cs.length + 1) cs (Nat.le_refl _) (Nat.le_succ _),
    piecesF, h, pieces]
  simp [piecesF_congr cs.length a.length a (by omega) (Nat.le_refl _)]

theorem lStartsWith_self_append : ∀ (x y : List Char), lStartsWith x (x ++ y) = true := by
  intro x
  induction x with
  | nil => intro y; rfl
  | cons c cs ih => intro y; simp [lStartsWith, ih]

theorem lEndsWith_append_self (s m : List Char) : lEndsWith m (s ++ m) = true := by
  rw [lEndsWith, List.reverse_append]
  exact lStartsWith_self_append _ _

theorem stripEnds_mark {k : Nat} {m i : List Char} (hk : m.length = k) :
    stripEnds k (m ++ i ++ m) = i := by
  subst hk
  rw [stripEnds, List.append_assoc, List.drop_left]
  have h2 : (m ++ (i ++ m)).length - 2 * m.length = i.length := by
    simp [List.length_append]
    omega
  rw [h2, take_len_append]

theorem classifyPart_matchText {d : Delim} {i : List Char} (hne : i ≠ [])
    (hit : d = Delim.star1 → ∃ c p, i = c :: p ∧ '*' ∉ p) :
    classifyPart (matchText d i) = some ⟨i, styleOfDelim d⟩ := by
  cases d with
  | star2 =>
    have hm : matchText Delim.star2 i = '*' :: '*' :: (i ++ ['*', '*']) := by
      simp [matchText, delimMark]
    have h1 : lStartsWith ['*', '*'] ('*' :: '*' :: (i ++ ['*', '*'])) = true := by
      simp [lStartsWith]
    have h2 : lEndsWith ['*', '*'] ('*' :: '*' :: (i ++ ['*', '*'])) = true := by
      rw [show '*' :: '*' :: (i ++ ['*', '*']) = ('*' :: '*' :: i) ++ ['*', '*'] from by simp]
      exact lEndsWith_append_self _ _
    have hb : boldCond ('*' :: '*' :: (i ++ ['*', '*'])) = true := by
      rw [boldCond, h1, h2]
      simp
    have he : ('*' :: '*' :: (i ++ ['*', '*'])).isEmpty = false := rfl
    have hs : stripEnds 2 ('*' :: '*' :: (i ++ ['*', '*'])) = i := by
      rw [stripEnds]
      have hl : ('*' :: '*' :: (i ++ ['*', '*'])).length - 2 * 2 = i.length := by
        simp
      rw [hl]
      exact take_len_append i ['*', '*']
    rw [hm, classifyPart, he, hb]
    simp [hs, styleOfDelim]
  | star1 =>
    obtain ⟨c, p, hcp, hnp⟩ := hit rfl
    subst hcp
    have hm : matchText Delim.star1 (c :: p) = '*' :: c :: (p ++ ['*']) := by
      simp [matchText, delimMark]
    have hbold : boldCond ('*' :: c :: (p ++ ['*'])) = false := by
      by_cases hc : c = '*'
      · subst hc
        cases hp : p.reverse with
        | nil =>
          have hp2 : p = [] := by simpa using congrArg List.reverse hp
          subst hp2
          decide
        | cons q0 qs =>
          have hq0 : q0 ∈ p := List.mem_reverse.mp (by rw [hp]; exact List.mem_cons_self _ _)
          have hq0ne : ('*' == q0) = false := by
            simp only [beq_eq_false_iff_ne, ne_eq]
            intro hq; exact hnp (by rw [← hq] at hq0; exact hq0)
          have hsfx : lEndsWith ['*', '*'] ('*' :: '*' :: (p ++ ['*'])) = false := by
            rw [lEndsWith]
            simp [List.reverse_append, hp, lStartsWith, hq0ne]
          rw [boldCond, hsfx]
          simp
      · have hpre : lStartsWith ['*', '*'] ('*' :: c :: (p ++ ['*'])) = false := by
          simp [lStartsWith]
          exact fun h => absurd h.symm hc
        rw [boldCond, hpre]
        simp
    have h1 : lStartsWith ['*'] ('*' :: c :: (p ++ ['*'])) = true := by
      simp [lStartsWith]
    have h2 : lEndsWith ['*'] ('*' :: c :: (p ++ ['*'])) = true := by
      rw [show '*' :: c :: (p ++ ['*']) = ('*' :: c :: p) ++ ['*'] from by simp]
      exact lEndsWith_append_self _ _
    have hital : italCond ('*' :: c :: (p ++ ['*'])) = true := by
      rw [italCond, h1, h2]
      simp
    have he : ('*' :: c :: (p ++ ['*'])).isEmpty = false := rfl
    have hs : stripEnds 1 ('*' :: c :: (p ++ ['*'])) = c :: p := by
      rw [stripEnds]
      have hl : ('*' :: c :: (p ++ ['*'])).length - 2 * 1 = p.length + 1 := by
        simp
      rw [hl]
      show (c :: (p ++ ['*'])).take (p.length + 1) = c :: p
      rw [List.take_succ_cons, take_len_append]
    rw [hm, classifyPart, he, hbold, hital]
    simp [hs, styleOfDelim]
  | tick =>
    have hm : matchText Delim.tick i = tickChar :: (i ++ [tickChar]) := by
      simp [matchText, delimMark]
    have hstar : ('*' == tickChar) = false := by decide
    have hbold : boldCond (tickChar :: (i ++ [tickChar])) = false := by
      have hpre : lStartsWith ['*', '*'] (tickChar :: (i ++ [tickChar])) = false := by
        simp [lStartsWith, hstar]
      rw [boldCond, hpre]
      simp
    have hital : italCond (tickChar :: (i ++ [tickChar])) = false := by
      have hpre : lStartsWith ['*'] (tickChar :: (i ++ [tickChar])) = false := by
        simp [lStartsWith, hstar]
      rw [italCond, hpre]
      simp
    have h1 : lStartsWith [tickChar] (tickChar :: (i ++ [tickChar])) = true := by
      simp [lStartsWith]
    have h2 : lEndsWith [tickChar] (tickChar :: (i ++ [tickChar])) = true := by
      rw [show tickChar :: (i ++ [tickChar]) = (tickChar :: i) ++ [tickChar] from by simp]
      exact lEndsWith_append_self _ _
    have hcode : codeCond (tickChar :: (i ++ [tickChar])) = true := by
      rw [codeCond, h1, h2]
      simp
    have he : (tickChar :: (i ++ [tickChar])).isEmpty = false := rfl
    have hs : stripEnds 1 (tickChar :: (i ++ [tickChar])) = i := by
      rw [stripEnds]
      have hl : (tickChar :: (i ++ [tickChar])).length - 2 * 1 = i.length := by
        simp
      rw [hl]
      exact take_len_append i [tickChar]
    rw [hm, classifyPart, he, hbold, hital, hcode]
    simp [hs, styleOfDelim]

theorem classifyPart_of_notDelim {p : List Char} (hld : looksDelimited p = false)
    (hne : p ≠ []) : classifyPart p = some ⟨p, Style.plain⟩ := by
  have h3 : (boldCond p = false ∧ italCond p = false) ∧ codeCond p = false := by
    simpa [looksDelimited] using hld
  have hE : p.isEmpty = false := by simpa using hne
  rw [classifyPart, hE, h3.1.1, h3.1.2, h3.2]
  simp

theorem splitParts_none {cs : List Char} (h : findFirstMatch cs = none) :
    splitParts cs = [cs] := by
  rw [splitParts, pieces_none h]
  simp [pieceText]

theorem splitParts_some {cs p : List Char} {d : Delim} {i a : List Char}
    (h : findFirstMatch cs = some (p, d, i, a)) :
    splitParts cs = p :: matchText d i :: splitParts a := by
  rw [splitParts, pieces_some h, splitParts]
  simp [pieceText]

theorem removeMatchedDelims_none {cs : List Char} (h : findFirstMatch cs = none) :
    removeMatchedDelims cs = cs := by
  rw [removeMatchedDelims, pieces_none h]
  simp [pieceKept]

theorem removeMatchedDelims_some {cs p : List Char} {d : Delim} {i a : List Char}
    (h : findFirstMatch cs = some (p, d, i, a)) :
    removeMatchedDelims cs = p ++ i ++ removeMatchedDelims a := by
  rw [removeMatchedDelims, pieces_some h, removeMatchedDelims]
  simp [pieceKept, List.append_assoc]

theorem rawSegs_none {cs : List Char} (h : findFirstMatch cs = none) :
    rawSegs cs = [cs] := by
  rw [rawSegs, pieces_none h]
  simp

theorem rawSegs_some {cs p : List Char} {d : Delim} {i a : List Char}
    (h : findFirstMatch cs = some (p, d, i, a)) :
    rawSegs cs = p :: rawSegs a := by
  rw [rawSegs, pieces_some h, rawSegs]
  simp

theorem tokenize_concat_aux :
    ∀ (n : Nat) (cs : List Char), cs.length ≤ n →
      (∀ p ∈ rawSegs cs, looksDelimited p = false) →
      spanConcatTexts (tokenize_inline cs) = removeMatchedDelims cs := by
  intro n
  induction n with
  | zero =>
    intro cs hn h
    have hcs : cs = [] := List.length_eq_zero.mp (Nat.le_zero.mp hn)
    subst hcs
    decide
  | succ n ih =>
    intro cs hn h
    cases hf : findFirstMatch cs with
    | none =>
      have hmem : cs ∈ rawSegs cs := by rw [rawSegs_none hf]; simp
      have hld := h cs hmem
      rw [tokenize_inline, splitParts_none hf, removeMatchedDelims_none hf]
      by_cases hE : cs = []
      · subst hE; decide
      · rw [List.filterMap_cons, classifyPart_of_notDelim hld hE]
        simp [spanConcatTexts]
    | some r =>
      obtain ⟨p, d, i, a⟩ := r
      obtain ⟨hdec, hne, hinv⟩ := findFirstMatch_eq hf
      have hlt := findFirstMatch_rest_lt hf
      have hrest : ∀ q ∈ rawSegs a, looksDelimited q = false := by
        intro q hq
        exact h q (by rw [rawSegs_some hf]; exact List.mem_cons_of_mem _ hq)
      have iha : spanConcatTexts (tokenize_inline a) = removeMatchedDelims a :=
        ih a (by omega) hrest
      have hmemp : p ∈ rawSegs cs := by rw [rawSegs_some hf]; exact List.mem_cons_self _ _
      have hldp := h p hmemp
      rw [tokenize_inline, splitParts_some hf, removeMatchedDelims_some hf,
        List.filterMap_cons, List.filterMap_cons, classifyPart_matchText hne hinv]
      have htok : List.filterMap classifyPart (splitParts a) = tokenize_inline a := rfl
      by_cases hE : p = []
      · subst hE
        rw [show classifyPart [] = none from rfl, htok]
        simp only [spanConcatTexts] at iha ⊢
        simp [iha]
      · rw [classifyPart_of_notDelim hldp hE, htok]
        simp only [spanConcatTexts] at iha ⊢
        simp [iha, List.append_assoc]

theorem classifyPart_plain_shape {p : List Char} {sp : InlineSpan}
    (h : classifyPart p = some sp) (hpl : sp.style = Style.plain) : sp.text ≠ [] := by
  rw [classifyPart] at h
  split at h
  · cases h
  · split at h
    · injection h with h2
      subst h2
      simp at hpl
    · split at h
      · injection h with h2
        subst h2
        simp at hpl
      · split at h
        · injection h with h2
          subst h2
          simp at hpl
        · injection h with h2
          subst h2
          rename_i hne _ _ _
          simpa using hne

theorem scanAux_length :
    ∀ (ls : List (List Char)) (b : Bool) (cl : List (List Char)),
      (b = false → cl = []) →
      (scanAux ls b cl).length + numFences ls = cl.length + ls.length := by
  intro ls
  induction ls with
  | nil =>
    intro b cl hb
    cases b with
    | false => simp [scanAux, numFences, hb rfl]
    | true => simp [scanAux, numFences]
  | cons l ls ih =>
    intro b cl hb
    by_cases hf : isFence l
    · cases b with
      | true =>
        have := ih false [] (fun _ => rfl)
        simp only [scanAux, hf, if_true, numFences, List.filter_cons, List.length_append,
          List.length_map, List.length_cons] at *
        simp [hf] at *
        omega
      | false =>
        have hcl := hb rfl
        subst hcl
        have := ih true [] (fun hcontra => by cases hcontra)
        simp only [scanAux, hf, if_true, numFences, List.filter_cons, List.length_cons] at *
        simp [hf] at *
        omega
    · have hfb : isFence l = false := by simpa using hf
      cases b with
      | true =>
        have := ih true (cl ++ [l]) (fun hcontra => by cases hcontra)
        simp only [scanAux, hfb, numFences, List.filter_cons, List.length_cons,
          List.length_append] at *
        simp [hfb] at *
        omega
      | false =>
        have hcl := hb rfl
        subst hcl
        have := ih false [] (fun _ => rfl)
        simp only [scanAux, hfb, numFences, List.filter_cons, List.length_cons] at *
        simp [hfb] at *
        omega

theorem emitLine_renderBlock (l : List Char) : emitLine l = renderBlock (classifyLine l) := by
  rw [emitLine, classifyLine]
  cases hh : headingMatch l with
  | some r =>
    obtain ⟨n, g⟩ := r
    rfl
  | none =>
    cases hb : bulletMatch l with
    | some g => rfl
    | none =>
      cases hn : numMatch l with
      | some g => rfl
      | none =>
        by_cases hs : (pyStrip l).isEmpty
        · simp [hs, renderBlock]
        · simp [hs, renderBlock]

theorem exportAux_eq_map :
    ∀ (ls : List (List Char)) (b : Bool) (cl : List (List Char)),
      exportAux ls b cl = (scanAux ls b cl).map renderBlock := by
  intro ls
  induction ls with
  | nil =>
    intro b cl
    cases b with
    | false => rfl
    | true =>
      simp only [exportAux, scanAux, if_true, List.map_map]
      rfl
  | cons l ls ih =>
    intro b cl
    by_cases hf : isFence l
    · cases b with
      | true =>
        simp only [exportAux, scanAux, hf, if_true, List.map_append, List.map_map, ih]
        rfl
      | false =>
        simp only [exportAux, scanAux, hf, if_true, Bool.false_eq_true, if_false, ih]
    · have hfb : isFence l = false := by simpa using hf
      cases b with
      | true =>
        simp only [exportAux, scanAux, hfb, Bool.false_eq_true, if_false, if_true, ih]
      | false =>
        simp only [exportAux, scanAux, hfb, Bool.false_eq_true, if_false, ih,
          List.map_cons, emitLine_renderBlock]

theorem takeWhile_replicate_append (n : Nat) (c : Char) (rest : List Char)
    (hc : (c == '#') = false) :
    ((List.replicate n '#' ++ c :: rest).takeWhile (fun x => x == '#')) =
      List.replicate n '#' := by
  induction n with
  | zero => simp [List.takeWhile_cons, hc]
  | succ n ih => simp [List.replicate_succ, List.takeWhile_cons, ih]

theorem pyStrip_dropWhile (cs : List Char) :
    pyStrip (cs.dropWhile isPySpace) = pyStrip cs := by
  rw [pyStrip, pyStrip, List.dropWhile_idempotent]

theorem headingMatch_eval (n : Nat) (c : Char) (rest : List Char)
    (h1 : 1 ≤ n) (h2 : n ≤ 6) (h3 : isPySpace c = true) :
    headingMatch (List.replicate n '#' ++ c :: rest) =
      some (n, (c :: rest).dropWhile isPySpace) := by
  have hch : c ≠ '#' := by
    intro he
    rw [he] at h3
    exact absurd h3 (by decide)
  have hcne : (c == '#') = false := by simpa using hch
  have htw := takeWhile_replicate_append n c rest hcne
  have hdr : (List.replicate n '#' ++ c :: rest).drop n = c :: rest := by
    have hd := List.drop_left (List.replicate n '#') (c :: rest)
    rwa [List.length_replicate] at hd
  rw [headingMatch]
  simp only [htw, List.length_replicate, hdr]
  rw [if_pos ⟨h1, h2⟩, if_pos h3]

/-- C3 (amended): the heading check runs on the raw line; a line that starts
directly with one to six hashes then whitespace classifies as a heading with
level equal to the hash count and content the remainder trimmed. -/
theorem c3_heading_untrimmed (n : Nat) (c : Char) (rest : List Char)
    (h1 : 1 ≤ n) (h2 : n ≤ 6) (h3 : isPySpace c = true) :
    classifyLine (List.replicate n '#' ++ c :: rest) =
      Block.Heading n (pyStrip (c :: rest)) := by
  rw [classifyLine, headingMatch_eval n c rest h1 h2 h3]
  have hdw : (c :: rest).dropWhile isPySpace = rest.dropWhile isPySpace := by
    simp [List.dropWhile_cons, h3]
  show Block.Heading n (pyStrip ((c :: rest).dropWhile isPySpace)) =
    Block.Heading n (pyStrip (c :: rest))
  rw [hdw, pyStrip_dropWhile, pyStrip, pyStrip, List.dropWhile_cons, h3]
  simp

/-- C3 witness: the amended heading rule applied at a concrete line. -/
theorem c3_heading_untrimmed_witness :
    classifyLine (List.replicate 2 '#' ++ ' ' :: "Hi".data) =
      Block.Heading 2 (pyStrip (' ' :: "Hi".data)) :=
  c3_heading_untrimmed 2 ' ' "Hi".data (by decide) (by decide) (by decide)

/-- C3 counterexample: a line whose trimmed text starts with hash-space but
that carries leading indentation is classified as a Paragraph, not as the
Heading the claim requires. -/
theorem c3_counterexample :
    scan_blocks ("  # Title").data = [Block.Paragraph ("  # Title").data] ∧
      scan_blocks ("  # Title").data ≠ [Block.Heading 1 "Title".data] := by
  decide

/-- C1 counterexample: on the claim's exact input the scanner does not return
the claimed five-element sequence (the trailing newline yields a final empty
line and hence a sixth block). -/
theorem c1_counterexample :
    scan_blocks ("# Title\n\nSome *text*.\n\n```\ncode line\n```\n").data ≠
      [Block.Heading 1 "Title".data, Block.BlankSeparator,
       Block.Paragraph "Some *text*.".data, Block.BlankSeparator,
       Block.CodeLine "code line".data] := by
  decide

/-- C1 (amended): on the claim's exact input the scanner yields the claimed
five blocks followed by one extra trailing BlankSeparator coming from the
empty final line produced by the trailing newline; the two fence-marker
lines produce no blocks. -/
theorem c1_amended_scan_scenario :
    scan_blocks ("# Title\n\nSome *text*.\n\n```\ncode line\n```\n").data =
      [Block.Heading 1 "Title".data, Block.BlankSeparator,
       Block.Paragraph "Some *text*.".data, Block.BlankSeparator,
       Block.CodeLine "code line".data, Block.BlankSeparator] := by
  decide

/-- C2 counterexample: on content consisting of two asterisks there is no
INLINE_RE match, yet the classifier strips the unmatched segment, so the
concatenated span text is empty while the content with its matched
delimiter pairs removed is the content itself. -/
theorem c2_counterexample :
    spanConcatTexts (tokenize_inline ("**").data) = [] ∧
      removeMatchedDelims ("**").data = ("**").data ∧
      spanConcatTexts (tokenize_inline ("**").data) ≠ removeMatchedDelims ("**").data := by
  decide

/-- C2 (amended): for every content string in which no between-match segment
of the split itself passes one of the delimiter-shaped tests, concatenating
the text fields of the tokenizer's output equals the content with exactly
its matched delimiter pairs removed. -/
theorem c2_inline_concat_amended (cs : List Char)
    (h : ∀ p ∈ rawSegs cs, looksDelimited p = false) :
    spanConcatTexts (tokenize_inline cs) = removeMatchedDelims cs :=
  tokenize_concat_aux cs.length cs (Nat.le_refl _) h

/-- C2 witness: the amended concatenation invariant at a concrete content. -/
theorem c2_inline_concat_witness :
    (∀ p ∈ rawSegs ("**a** *b*").data, looksDelimited p = false) ∧
      spanConcatTexts (tokenize_inline ("**a** *b*").data) =
        removeMatchedDelims ("**a** *b*").data :=
  ⟨by decide, c2_inline_concat_amended ("**a** *b*").data (by decide)⟩

/-- C4 counterexample: a heading line is emitted via add_heading with its
literal text, carrying no inline runs, although the tokenizer applied to
that content would produce a bold span. -/
theorem c4_counterexample :
    export_docx_from_markdown ("# **a**").data = [DocItem.headingItem 1 ("**a**").data] ∧
      docRuns (DocItem.headingItem 1 ("**a**").data) = none ∧
      tokenize_inline ("**a**").data = [⟨"a".data, Style.bold⟩] := by
  decide

/-- C4 (amended): the export trace is the block sequence rendered blockwise,
where the inline tokenizer supplies the runs of exactly the BulletItem,
NumberedItem and Paragraph blocks, while Heading and CodeLine blocks are
rendered with their literal text. -/
theorem c4_renderer_tokenize_amended (md : List Char) :
    export_docx_from_markdown md = (scan_blocks md).map renderBlock := by
  rw [export_docx_from_markdown, scan_blocks]
  exact exportAux_eq_map _ _ _

/-- C5: tokenizing the claimed content yields exactly bold, plain, italic;
the double-asterisk run is matched as one bold span, not two italics. -/
theorem c5_bold_tiebreak :
    tokenize_inline ("**a** *b*").data =
      [⟨"a".data, Style.bold⟩, ⟨" ".data, Style.plain⟩, ⟨"b".data, Style.italic⟩] := by
  decide

/-- C6: if the scanner is inside a fence with accumulated code lines and no
remaining line closes the fence, every accumulated and remaining line is
still emitted as a CodeLine block, in order. -/
theorem c6_unterminated_fence_flush (ls cl : List (List Char))
    (h : ∀ l ∈ ls, isFence l = false) :
    scanAux ls true cl = (cl ++ ls).map Block.CodeLine := by
  induction ls generalizing cl with
  | nil => simp [scanAux]
  | cons l ls ih =>
    have hf : isFence l = false := h l (List.mem_cons_self _ _)
    rw [scanAux, if_neg (by simp [hf]), if_pos rfl,
      ih (cl ++ [l]) (fun x hx => h x (List.mem_cons_of_mem _ hx))]
    simp

/-- C6 witness: the unterminated-fence flush at concrete lines. -/
theorem c6_unterminated_fence_flush_witness :
    scanAux ["x".data] true ["c".data] =
      ((["c".data] ++ ["x".data]).map Block.CodeLine) :=
  c6_unterminated_fence_flush ["x".data] ["c".data] (by decide)

/-- C7: the scanner is a total function and its output has at most one block
per input line. -/
theorem c7_output_length_le_lines (md : List Char) :
    (scan_blocks md).length ≤ (pyLines md).length := by
  have h := scanAux_length (pyLines md) false [] (fun _ => rfl)
  simp only [List.length_nil, Nat.zero_add] at h
  rw [scan_blocks]
  omega

/-- C8: the result of a scan made after any earlier sequence of scans of
other documents is exactly the fresh scan of its own text; the fence state
is initialised inside each call and never persists. -/
theorem c8_no_cross_call_state (docs : List (List Char)) (t : List Char) :
    (runExportCalls (docs ++ [t])).getLast? = some (scan_blocks t) := by
  rw [runExportCalls, List.map_append]
  exact List.getLast?_concat _

/-- C9: the output length plus the number of fence-marker lines equals the
number of input lines: every fence line yields no block and every other
line yields exactly one. -/
theorem c9_output_length_eq (md : List Char) :
    (scan_blocks md).length + numFences (pyLines md) = (pyLines md).length := by
  have h := scanAux_length (pyLines md) false [] (fun _ => rfl)
  simp only [List.length_nil, Nat.zero_add] at h
  rw [scan_blocks]
  omega

/-- C10 counterexample: two asterisks tokenize to a single italic span with
empty text, so not every produced span has non-empty text. -/
theorem c10_counterexample :
    tokenize_inline ("**").data = [⟨[], Style.italic⟩] ∧
      ¬(∀ sp ∈ tokenize_inline ("**").data, sp.text ≠ []) := by
  decide

/-- C10 (amended): every Plain span produced by the tokenizer has non-empty
text, and the empty content yields the empty span sequence; styled spans
coming from unmatched delimiter-shaped segments may have empty text. -/
theorem c10_plain_nonempty_amended :
    (∀ (cs : List Char), ∀ sp ∈ tokenize_inline cs, sp.style = Style.plain → sp.text ≠ []) ∧
      tokenize_inline [] = [] := by
  constructor
  · intro cs sp hm hpl
    rw [tokenize_inline] at hm
    obtain ⟨p, _, hcp⟩ := List.mem_filterMap.mp hm
    exact classifyPart_plain_shape hcp hpl
  · decide

/-- C10 witness: a concrete Plain span produced by the tokenizer is
non-empty. -/
theorem c10_plain_nonempty_witness :
    (InlineSpan.mk "x".data Style.plain).text ≠ [] :=
  c10_plain_nonempty_amended.1 "x".data ⟨"x".data, Style.plain⟩ (by decide) (by decide)
